import Mathlib

/-!
# Verification of the Infoarena BFS program

A shallow embedding of `src/Algorithms/bfs_breadth-first-search/bfs.cpp`
(classes `Vertex`, `Edge`, `Graph`, function `main`) together with proofs of
the specification's claims about it.

Modelling conventions:
* The C++ `Graph` owns `vertices : std::vector<Vertex*>` with `N + 1` slots;
  slot `i` holds `new Vertex(i)`.  Each `Vertex` holds a constant `id`, a
  mutable `int distance` initialised to `-1`, and an ordered edge list of
  pointers to destination vertices.  Since a vertex pointer is uniquely
  determined by its slot index, we represent the vertex array as three
  parallel lists indexed by slot: `ids` (the `id` fields), `adj` (each
  vertex's list of destination indices, in insertion order) and `dist`
  (the `distance` fields).
* Machine integers become `Nat`/`Int`; the distances computed stay far below
  any overflow boundary, so no modular wrap is modelled.
* `std::vector::operator[]` is unchecked in C++ (out of range is undefined
  behaviour).  The primary embedding totalises reads with `List.getD` and
  writes with `List.set` (which leaves the list unchanged out of range); a
  second, `Option`-valued "checked" embedding makes each slot lookup of a
  vertex id fail with `none` when out of range, and we prove the `none`
  branch unreachable under the documented precondition (claim C8).
* The C++ `while (!vertex_queue.empty())` loop is embedded with an explicit
  fuel argument; `none` models non-termination.  We prove the chosen fuel is
  always sufficient (claim C3), so the fuel is an artefact of totalisation,
  not a semantic restriction.
-/

/-- One slot-indexed graph state: `ids` are the `Vertex::id` fields, `adj`
the per-vertex ordered adjacency (destination slot indices), `dist` the
mutable `Vertex::distance` fields.  All three lists have length `N + 1`
for a graph constructed as `Graph(N)`. -/
structure Graph where
  ids : List Nat
  adj : List (List Nat)
  dist : List Int
deriving Repr, DecidableEq

/-- `Graph::Graph(size)`: pushes `new Vertex(i)` for `i = 0 .. size`, so slot
`i` has id `i`, an empty edge list, and `distance = -1`. -/
def Graph.init (size : Nat) : Graph :=
  { ids := List.range (size + 1)
    adj := List.replicate (size + 1) []
    dist := List.replicate (size + 1) (-1) }

/-- `Graph::GetNumberOfVertices()`: `vertices.size() - 1`. -/
def Graph.numberOfVertices (g : Graph) : Nat :=
  g.dist.length - 1

/-- `Graph::IsEmpty()`. -/
def Graph.isEmpty (g : Graph) : Bool :=
  g.numberOfVertices == 0

/-- `Graph::AddVertex(origin_id, destination_id)`: looks up both slots and
appends the destination to the origin's edge list (`edges.push_back`). -/
def Graph.addVertex (g : Graph) (origin dest : Nat) : Graph :=
  { g with adj := g.adj.set origin (g.adj.getD origin [] ++ [dest]) }

/-- The inner `for` loop of `Graph::BreadthFirstSearch`: scan the dequeued
vertex `v`'s neighbour list in order; each neighbour `u` with
`distance != -1` is skipped, otherwise `u.distance` is set to
`v.distance + 1` (the origin's distance is re-read at every assignment, as
in the source) and `u` is recorded for enqueueing.  Returns the updated
distances and the list of newly enqueued vertices in push order. -/
def visitNeighbours (neighbours : List Nat) (v : Nat) (dist : List Int) :
    List Int × List Nat :=
  match neighbours with
  | [] => (dist, [])
  | u :: rest =>
    if dist.getD u 0 ≠ -1 then
      visitNeighbours rest v dist
    else
      let dist' := dist.set u (dist.getD v 0 + 1)
      let r := visitNeighbours rest v dist'
      (r.1, u :: r.2)

/-- The `while (!vertex_queue.empty())` loop of `Graph::BreadthFirstSearch`,
with explicit fuel: dequeue the front vertex, visit its neighbours, append
the newly discovered vertices at the back of the FIFO queue.  `none` models
running out of fuel (the fuel used by `breadthFirstSearch` is proved
sufficient below). -/
def bfsLoop (adj : List (List Nat)) : Nat → List Nat → List Int → Option (List Int)
  | _, [], dist => some dist
  | 0, _ :: _, _ => none
  | fuel + 1, v :: rest, dist =>
    let r := visitNeighbours (adj.getD v []) v dist
    bfsLoop adj fuel (rest ++ r.2) r.1

/-- Fuel bound for the traversal loop: one iteration per undiscovered vertex
plus one for the initially enqueued source. -/
def bfsFuel (dist : List Int) : Nat :=
  dist.count (-1) + 1

/-- `Graph::BreadthFirstSearch(source_vertex_id)`: set the source's distance
to `0`, enqueue it, and run the loop.  Only the `dist` fields are written;
`ids` and `adj` are untouched. -/
def Graph.breadthFirstSearch (g : Graph) (s : Nat) : Option Graph :=
  let dist0 := g.dist.set s 0
  (bfsLoop g.adj (bfsFuel dist0) [s] dist0).map (fun d => { g with dist := d })

/-- State of a `std::ostringstream` used for output: the character buffer,
the put position, and the fail bit. -/
structure OStream where
  buf : List Char
  pos : Nat
  failbit : Bool
deriving Repr, DecidableEq

/-- `operator<<` on the stream: a no-op when the fail bit is set, otherwise
overwrite starting at the put position (extending the buffer as needed) and
advance the position. -/
def OStream.write (st : OStream) (s : List Char) : OStream :=
  if st.failbit then st
  else
    { st with
      buf := st.buf.take st.pos ++ s ++ st.buf.drop (st.pos + s.length)
      pos := st.pos + s.length }

/-- Single-argument `seekp(p)`: seek to the absolute position `p`.  For a
string stream the valid positions are `0 .. buf.length`; any other argument
(in particular any negative one) makes `pubseekpos` fail and `seekp` set the
fail bit. -/
def OStream.seekp (st : OStream) (p : Int) : OStream :=
  if st.failbit then st
  else if 0 ≤ p ∧ p ≤ (st.buf.length : Int) then { st with pos := p.toNat }
  else { st with failbit := true }

/-- `Graph::PrintDistances()`: stream `distance` then `" "` for each vertex
`1 .. N`, call `seekp(-1)` (absolute seek, per the single-argument overload),
stream `"\n"`, and return `str()` — which yields the buffer contents
regardless of the stream's state. -/
def Graph.printDistances (g : Graph) : String :=
  let st : OStream := ⟨[], 0, false⟩
  let st := (List.range' 1 g.numberOfVertices).foldl
    (fun st i => (st.write (toString (g.dist.getD i 0)).data).write [' ']) st
  let st := st.seekp (-1)
  let st := st.write ['\n']
  String.mk st.buf

/-- The graph-building phase of `main`: construct `Graph(n)` and add the `M`
edges in input order. -/
def buildGraph (n : Nat) (edges : List (Nat × Nat)) : Graph :=
  edges.foldl (fun g e => g.addVertex e.1 e.2) (Graph.init n)

/-- The whole computation of `main` on already-parsed input: build the
graph, run `BreadthFirstSearch(s)`, and produce the output string written to
`bfs.out`. -/
def runProgram (n : Nat) (edges : List (Nat × Nat)) (s : Nat) : Option String :=
  ((buildGraph n edges).breadthFirstSearch s).map Graph.printDistances

/-! ## Specification-side notions: edges, walks, paths, shortest distance -/

/-- `u → v` is an edge of the adjacency structure. -/
def edgeB (adj : List (List Nat)) (u v : Nat) : Bool :=
  (adj.getD u []).contains v

/-- `reachN adj s k v`: there is a directed walk of exactly `k` edges from
`s` to `v`. -/
def reachN (adj : List (List Nat)) (s : Nat) : Nat → Nat → Prop
  | 0, v => v = s
  | k + 1, v => ∃ u, reachN adj s k u ∧ edgeB adj u v = true

/-- `v` is reachable from `s` by a directed walk (equivalently, a path). -/
def Reachable (adj : List (List Nat)) (s v : Nat) : Prop :=
  ∃ k, reachN adj s k v

/-- `IsWalk adj s p v`: the vertex sequence `p` is a directed walk from `s`
to `v` (consecutive vertices joined by edges).  Its length in edges is
`p.length - 1`. -/
def IsWalk (adj : List (List Nat)) (s : Nat) (p : List Nat) (v : Nat) : Prop :=
  p.head? = some s ∧ p.getLast? = some v ∧ List.Chain' (fun a b => edgeB adj a b = true) p

/-- `k` is the length (in edges) of the shortest directed path from `s` to
`v`: some path (a walk through `k + 1` distinct vertices) attains `k`, and
no path is shorter. -/
def IsShortestPathLen (adj : List (List Nat)) (s v : Nat) (k : Nat) : Prop :=
  (∃ p, IsWalk adj s p v ∧ p.Nodup ∧ p.length = k + 1) ∧
    ∀ p, IsWalk adj s p v → p.Nodup → k + 1 ≤ p.length

/-- All edge endpoints of the parsed input lie in `[1, N]`. -/
def EdgesInRange (n : Nat) (edges : List (Nat × Nat)) : Prop :=
  ∀ e ∈ edges, 1 ≤ e.1 ∧ e.1 ≤ n ∧ 1 ≤ e.2 ∧ e.2 ≤ n

/-- All distance values are either the sentinel `-1` or non-negative (an
invariant of every state the program reaches). -/
def DistInv (dist : List Int) : Prop :=
  ∀ i, dist.getD i 0 = -1 ∨ 0 ≤ dist.getD i 0

/-- The invariant maintained across iterations of the traversal loop, for a
run started on a freshly built graph.  `level` is the classical
two-level structure of the FIFO queue: a block of vertices at distance `d`
followed by a block at distance `d + 1`, every discovered vertex has
distance at most `d + 1`, and every discovered vertex already dequeued has
all its neighbours discovered with distances exceeding its own by at most
one. -/
structure LoopInv (adj : List (List Nat)) (s : Nat) (queue : List Nat)
    (dist : List Int) : Prop where
  len_eq : dist.length = adj.length
  src : dist.getD s 0 = 0
  values : DistInv dist
  queueBound : ∀ q ∈ queue, q < dist.length
  sound : ∀ w, w < dist.length → dist.getD w 0 ≠ -1 →
    ∃ k : Nat, reachN adj s k w ∧ dist.getD w 0 = (k : Int)
  level : ∃ d : Nat, ∃ Q1 Q2, queue = Q1 ++ Q2 ∧
    (∀ q ∈ Q1, dist.getD q 0 = (d : Int)) ∧
    (∀ q ∈ Q2, dist.getD q 0 = (d : Int) + 1) ∧
    (∀ w, dist.getD w 0 ≠ -1 → dist.getD w 0 ≤ (d : Int) + 1) ∧
    (∀ u, u < dist.length → dist.getD u 0 ≠ -1 → u ∉ queue →
      ∀ w ∈ adj.getD u [], dist.getD w 0 ≠ -1 ∧ dist.getD w 0 ≤ dist.getD u 0 + 1)

/-! ## Instrumented and bounds-checked variants -/

/-- The traversal loop instrumented with its push trace: identical to
`bfsLoop`, but additionally returns the vertices pushed onto the queue, in
push order.  In the source, a vertex's `distance` is assigned a non-sentinel
value on exactly the lines directly preceding each push, so this list is
also the sequence of distance assignments. -/
def bfsLoopT (adj : List (List Nat)) :
    Nat → List Nat → List Int → Option (List Int × List Nat)
  | _, [], dist => some (dist, [])
  | 0, _ :: _, _ => none
  | fuel + 1, v :: rest, dist =>
    let r := visitNeighbours (adj.getD v []) v dist
    (bfsLoopT adj fuel (rest ++ r.2) r.1).map (fun p => (p.1, r.2 ++ p.2))

/-- `Graph::BreadthFirstSearch` instrumented with its push trace (the
source is assigned and pushed first, before the loop). -/
def Graph.breadthFirstSearchTrace (g : Graph) (s : Nat) :
    Option (Graph × List Nat) :=
  let dist0 := g.dist.set s 0
  (bfsLoopT g.adj (bfsFuel dist0) [s] dist0).map
    (fun p => ({ g with dist := p.1 }, s :: p.2))

/-- `Graph::AddVertex` with the two `vertices[...]` slot lookups checked:
`none` models the out-of-bounds accesses that are undefined behaviour in
the C++ source. -/
def Graph.addVertexChecked (g : Graph) (origin dest : Nat) : Option Graph :=
  if origin < g.adj.length ∧ dest < g.adj.length then
    some { g with adj := g.adj.set origin (g.adj.getD origin [] ++ [dest]) }
  else none

/-- The graph-building phase with checked accesses. -/
def buildGraphChecked (n : Nat) (edges : List (Nat × Nat)) : Option Graph :=
  edges.foldl (fun og e => og.bind (fun g => g.addVertexChecked e.1 e.2))
    (some (Graph.init n))

/-- `Graph::BreadthFirstSearch` with its one unguarded vector index, the
`vertices[_source_vertex_id]` lookup, checked.  (The only other vector
index in the traversal is `edges[i]` inside `Vertex::operator[]`, which the
loop guard `i < GetNumberOfEdges()` keeps in bounds by construction; queue
entries are vertex pointers, not indices.) -/
def Graph.breadthFirstSearchChecked (g : Graph) (s : Nat) : Option Graph :=
  if s < g.dist.length then g.breadthFirstSearch s else none

/-- The output loop of `Graph::PrintDistances` with each `vertices[i]`
lookup checked. -/
def printLoopChecked (g : Graph) : List Nat → OStream → Option OStream
  | [], st => some st
  | i :: rest, st =>
    match g.dist.get? i with
    | none => none
    | some d => printLoopChecked g rest ((st.write (toString d).data).write [' '])

/-- `Graph::PrintDistances` with checked accesses. -/
def Graph.printDistancesChecked (g : Graph) : Option String :=
  (printLoopChecked g (List.range' 1 g.numberOfVertices) ⟨[], 0, false⟩).map
    (fun st => String.mk ((st.seekp (-1)).write ['\n']).buf)

/-- The whole computation of `main` with every vertex-slot index checked. -/
def runProgramChecked (n : Nat) (edges : List (Nat × Nat)) (s : Nat) : Option String :=
  (buildGraphChecked n edges).bind fun g =>
    (g.breadthFirstSearchChecked s).bind fun g' => g'.printDistancesChecked

/-! ## List access helpers -/

theorem getD_set_self {α : Type} {l : List α} {i : Nat} (h : i < l.length) (a d : α) :
    (l.set i a).getD i d = a := by
  simp [List.getD_eq_getElem?_getD, List.getElem?_set_self h]

theorem getD_set_ne {α : Type} {l : List α} {i j : Nat} (h : i ≠ j) (a d : α) :
    (l.set i a).getD j d = l.getD j d := by
  simp [List.getD_eq_getElem?_getD, List.getElem?_set_ne h]

theorem getD_oob {α : Type} {l : List α} {i : Nat} (h : l.length ≤ i) (d : α) :
    l.getD i d = d := by
  simp [List.getD_eq_getElem?_getD, List.getElem?_eq_none h]

theorem lt_length_of_getD_ne {α : Type} {l : List α} {i : Nat} {d : α}
    (h : l.getD i d ≠ d) : i < l.length := by
  by_contra h'
  exact h (getD_oob (Nat.le_of_not_lt h') d)

theorem getD_replicate {α : Type} {n i : Nat} (h : i < n) (a d : α) :
    (List.replicate n a).getD i d = a := by
  simp [List.getD_eq_getElem?_getD, List.getElem?_replicate, h]

theorem count_set_of_sentinel {l : List Int} {i : Nat} {b : Int}
    (hi : i < l.length) (hv : l.getD i 0 = -1) (hb : b ≠ -1) :
    (l.set i b).count (-1) + 1 = l.count (-1) := by
  have hgl : l[i] = (-1 : Int) := by
    have : l[i]? = some l[i] := List.getElem?_eq_getElem hi
    have h2 : l.getD i 0 = l[i] := by simp [List.getD_eq_getElem?_getD, this]
    omega
  rw [List.count_set]
  · simp [hgl, hb]
    have : 0 < List.count (-1 : Int) l := by
      rw [List.count_pos_iff]
      exact hgl ▸ List.getElem_mem hi
    omega
  · exact hi

/-! ## Properties of the inner neighbour loop -/

theorem visitNeighbours_length (us : List Nat) (v : Nat) (dist : List Int) :
    (visitNeighbours us v dist).1.length = dist.length := by
  induction us generalizing dist with
  | nil => rfl
  | cons u rest ih =>
    by_cases hu : dist.getD u 0 ≠ -1
    · simp only [visitNeighbours, if_pos hu]
      exact ih dist
    · simp only [visitNeighbours, if_neg hu]
      rw [ih]
      exact List.length_set ..

/-- Entries already discovered (non-sentinel) are never rewritten by the
neighbour loop. -/
theorem visitNeighbours_stable (us : List Nat) (v : Nat) (dist : List Int)
    {w : Nat} (hw : dist.getD w 0 ≠ -1) :
    (visitNeighbours us v dist).1.getD w 0 = dist.getD w 0 := by
  induction us generalizing dist with
  | nil => rfl
  | cons u rest ih =>
    by_cases hu : dist.getD u 0 ≠ -1
    · simp only [visitNeighbours, if_pos hu]
      exact ih dist hw
    · simp only [visitNeighbours, if_neg hu]
      have hne : u ≠ w := fun h => hw (h ▸ not_not.mp hu)
      have hset : (dist.set u (dist.getD v 0 + 1)).getD w 0 = dist.getD w 0 :=
        getD_set_ne hne _ _
      rw [ih _ (by rw [hset]; exact hw), hset]

/-- Entries of vertices not newly enqueued are unchanged. -/
theorem visitNeighbours_not_mem (us : List Nat) (v : Nat) (dist : List Int)
    {w : Nat} (hw : w ∉ (visitNeighbours us v dist).2) :
    (visitNeighbours us v dist).1.getD w 0 = dist.getD w 0 := by
  induction us generalizing dist with
  | nil => rfl
  | cons u rest ih =>
    by_cases hu : dist.getD u 0 ≠ -1
    · simp only [visitNeighbours, if_pos hu] at hw ⊢
      exact ih dist hw
    · simp only [visitNeighbours, if_neg hu] at hw ⊢
      have hne : u ≠ w := fun h => hw (h ▸ List.mem_cons_self u _)
      have hw' : w ∉ (visitNeighbours rest v (dist.set u (dist.getD v 0 + 1))).2 :=
        fun h => hw (List.mem_cons_of_mem _ h)
      rw [ih _ hw', getD_set_ne hne]

/-- Characterisation of the newly enqueued vertices: each was undiscovered
(sentinel distance), is an in-range neighbour from the scanned list, and
ends up with distance `dist[v] + 1`. -/
theorem visitNeighbours_new (us : List Nat) (v : Nat) (dist : List Int)
    (hv0 : 0 ≤ dist.getD v 0) :
    ∀ u ∈ (visitNeighbours us v dist).2,
      u ∈ us ∧ dist.getD u 0 = -1 ∧ u < dist.length ∧
        (visitNeighbours us v dist).1.getD u 0 = dist.getD v 0 + 1 := by
  induction us generalizing dist with
  | nil => intro u hu; cases hu
  | cons u rest ih =>
    by_cases hu : dist.getD u 0 ≠ -1
    · simp only [visitNeighbours, if_pos hu]
      intro w hw
      obtain ⟨h1, h2, h3, h4⟩ := ih dist hv0 w hw
      exact ⟨List.mem_cons_of_mem _ h1, h2, h3, h4⟩
    · simp only [visitNeighbours, if_neg hu]
      have hu' : dist.getD u 0 = -1 := not_not.mp hu
      have hulen : u < dist.length := lt_length_of_getD_ne (by rw [hu']; decide)
      have hvu : v ≠ u := by
        intro h
        rw [h, hu'] at hv0
        exact absurd hv0 (by decide)
      have hdv' : (dist.set u (dist.getD v 0 + 1)).getD v 0 = dist.getD v 0 :=
        getD_set_ne (fun h => hvu h.symm) _ _
      have hv0' : 0 ≤ (dist.set u (dist.getD v 0 + 1)).getD v 0 := by rw [hdv']; exact hv0
      intro w hw
      rcases List.mem_cons.mp hw with hwu | hwr
      · subst hwu
        refine ⟨List.mem_cons_self _ _, hu', hulen, ?_⟩
        have hset : (dist.set w (dist.getD v 0 + 1)).getD w 0 = dist.getD v 0 + 1 :=
          getD_set_self hulen _ _
        rw [visitNeighbours_stable _ _ _ (by rw [hset]; omega), hset]
      · obtain ⟨h1, h2, h3, h4⟩ := ih _ hv0' w hwr
        have hwu : u ≠ w := by
          intro h
          rw [h, getD_set_self (h ▸ hulen) _ _] at h2
          omega
        rw [getD_set_ne hwu] at h2
        rw [List.length_set] at h3
        rw [hdv'] at h4
        exact ⟨List.mem_cons_of_mem _ h1, h2, h3, h4⟩

/-- No vertex is enqueued twice within one scan of a neighbour list. -/
theorem visitNeighbours_nodup (us : List Nat) (v : Nat) (dist : List Int)
    (hv0 : 0 ≤ dist.getD v 0) :
    (visitNeighbours us v dist).2.Nodup := by
  induction us generalizing dist with
  | nil => exact List.nodup_nil
  | cons u rest ih =>
    by_cases hu : dist.getD u 0 ≠ -1
    · simp only [visitNeighbours, if_pos hu]
      exact ih dist hv0
    · simp only [visitNeighbours, if_neg hu]
      have hu' : dist.getD u 0 = -1 := not_not.mp hu
      have hulen : u < dist.length := lt_length_of_getD_ne (by rw [hu']; decide)
      have hvu : v ≠ u := by
        intro h
        rw [h, hu'] at hv0
        exact absurd hv0 (by decide)
      have hdv' : (dist.set u (dist.getD v 0 + 1)).getD v 0 = dist.getD v 0 :=
        getD_set_ne (fun h => hvu h.symm) _ _
      have hv0' : 0 ≤ (dist.set u (dist.getD v 0 + 1)).getD v 0 := by rw [hdv']; exact hv0
      refine List.nodup_cons.mpr ⟨?_, ih _ hv0'⟩
      intro hmem
      obtain ⟨_, h2, _, _⟩ := visitNeighbours_new _ _ _ hv0' u hmem
      rw [getD_set_self hulen] at h2
      omega

/-- The neighbour loop preserves the distance-value invariant. -/
theorem visitNeighbours_distInv (us : List Nat) (v : Nat) (dist : List Int)
    (hinv : DistInv dist) :
    DistInv (visitNeighbours us v dist).1 := by
  induction us generalizing dist with
  | nil => exact hinv
  | cons u rest ih =>
    by_cases hu : dist.getD u 0 ≠ -1
    · simp only [visitNeighbours, if_pos hu]
      exact ih dist hinv
    · simp only [visitNeighbours, if_neg hu]
      refine ih _ ?_
      intro i
      by_cases hiu : u = i
      · subst hiu
        have hu' : dist.getD u 0 = -1 := not_not.mp hu
        have hulen : u < dist.length := lt_length_of_getD_ne (by rw [hu']; decide)
        rw [getD_set_self hulen]
        rcases hinv v with h | h <;> omega
      · rw [getD_set_ne hiu]
        exact hinv i

/-- Each newly enqueued vertex accounts for exactly one sentinel entry
turned non-sentinel: the number of sentinel entries drops by the number of
pushes. -/
theorem visitNeighbours_count (us : List Nat) (v : Nat) (dist : List Int)
    (hinv : DistInv dist) :
    (visitNeighbours us v dist).1.count (-1) + (visitNeighbours us v dist).2.length
      = dist.count (-1) := by
  induction us generalizing dist with
  | nil => rfl
  | cons u rest ih =>
    by_cases hu : dist.getD u 0 ≠ -1
    · simp only [visitNeighbours, if_pos hu]
      exact ih dist hinv
    · simp only [visitNeighbours, if_neg hu]
      have hu' : dist.getD u 0 = -1 := not_not.mp hu
      have hulen : u < dist.length := lt_length_of_getD_ne (by rw [hu']; decide)
      have hval : dist.getD v 0 + 1 ≠ -1 := by rcases hinv v with h | h <;> omega
      have hinv' : DistInv (dist.set u (dist.getD v 0 + 1)) := by
        intro i
        by_cases hiu : u = i
        · subst hiu
          rw [getD_set_self hulen]
          rcases hinv v with h | h <;> omega
        · rw [getD_set_ne hiu]
          exact hinv i
      have := ih (dist.set u (dist.getD v 0 + 1)) hinv'
      have hcount := count_set_of_sentinel hulen hu' hval
      simp only [List.length_cons]
      omega

/-- If every scanned neighbour is already discovered, the loop is a no-op
(the second run of claim C7 hits exactly this case). -/
theorem visitNeighbours_all_discovered (us : List Nat) (v : Nat) (dist : List Int)
    (h : ∀ u ∈ us, dist.getD u 0 ≠ -1) :
    visitNeighbours us v dist = (dist, []) := by
  induction us with
  | nil => rfl
  | cons u rest ih =>
    simp only [visitNeighbours, if_pos (h u (List.mem_cons_self _ _))]
    exact ih (fun w hw => h w (List.mem_cons_of_mem _ hw))

/-- After the scan every scanned neighbour is discovered, with distance at
most `dist[v] + 1` — provided every already-discovered vertex had distance
at most `dist[v] + 1`. -/
theorem visitNeighbours_complete (us : List Nat) (v : Nat) (dist : List Int)
    (hv0 : 0 ≤ dist.getD v 0)
    (hb : ∀ w, dist.getD w 0 ≠ -1 → dist.getD w 0 ≤ dist.getD v 0 + 1) :
    ∀ u ∈ us, (visitNeighbours us v dist).1.getD u 0 ≠ -1 ∧
      (visitNeighbours us v dist).1.getD u 0 ≤ dist.getD v 0 + 1 := by
  induction us generalizing dist with
  | nil => intro u hu; cases hu
  | cons u rest ih =>
    by_cases hu : dist.getD u 0 ≠ -1
    · simp only [visitNeighbours, if_pos hu]
      intro w hw
      rcases List.mem_cons.mp hw with hwu | hwr
      · subst hwu
        rw [visitNeighbours_stable _ _ _ hu]
        exact ⟨hu, hb w hu⟩
      · exact ih dist hv0 hb w hwr
    · simp only [visitNeighbours, if_neg hu]
      have hu' : dist.getD u 0 = -1 := not_not.mp hu
      have hulen : u < dist.length := lt_length_of_getD_ne (by rw [hu']; decide)
      have hvu : v ≠ u := by
        intro h
        rw [h, hu'] at hv0
        exact absurd hv0 (by decide)
      have hdv' : (dist.set u (dist.getD v 0 + 1)).getD v 0 = dist.getD v 0 :=
        getD_set_ne (fun h => hvu h.symm) _ _
      have hv0' : 0 ≤ (dist.set u (dist.getD v 0 + 1)).getD v 0 := by rw [hdv']; exact hv0
      have hb' : ∀ w, (dist.set u (dist.getD v 0 + 1)).getD w 0 ≠ -1 →
          (dist.set u (dist.getD v 0 + 1)).getD w 0
            ≤ (dist.set u (dist.getD v 0 + 1)).getD v 0 + 1 := by
        intro w hw
        rw [hdv']
        by_cases hwu : u = w
        · subst hwu
          rw [getD_set_self hulen]
        · rw [getD_set_ne hwu] at hw ⊢
          exact hb w hw
      intro w hw
      rcases List.mem_cons.mp hw with hwu | hwr
      · subst hwu
        have hset : (dist.set w (dist.getD v 0 + 1)).getD w 0 = dist.getD v 0 + 1 :=
          getD_set_self hulen _ _
        rw [visitNeighbours_stable _ _ _ (by rw [hset]; omega), hset]
        exact ⟨by omega, le_refl _⟩
      · have := ih _ hv0' hb' w hwr
        rw [hdv'] at this
        exact this

/-- Soundness transfer: if every discovered vertex carries the length of an
actual walk from the source, this still holds after scanning the neighbour
list of a vertex `v` whose distance is the length of a walk to `v`. -/
theorem visitNeighbours_sound (us : List Nat) (v : Nat) (dist : List Int)
    (adj : List (List Nat)) (s kv : Nat)
    (hv0 : 0 ≤ dist.getD v 0)
    (hkv : reachN adj s kv v) (hdv : dist.getD v 0 = (kv : Int))
    (hus : ∀ u ∈ us, edgeB adj v u = true)
    (hsound : ∀ w, w < dist.length → dist.getD w 0 ≠ -1 →
      ∃ k : Nat, reachN adj s k w ∧ dist.getD w 0 = (k : Int)) :
    ∀ w, w < dist.length → (visitNeighbours us v dist).1.getD w 0 ≠ -1 →
      ∃ k : Nat, reachN adj s k w ∧ (visitNeighbours us v dist).1.getD w 0 = (k : Int) := by
  induction us generalizing dist with
  | nil => exact hsound
  | cons u rest ih =>
    by_cases hu : dist.getD u 0 ≠ -1
    · simp only [visitNeighbours, if_pos hu]
      exact ih dist hv0 hdv (fun w hw => hus w (List.mem_cons_of_mem _ hw)) hsound
    · simp only [visitNeighbours, if_neg hu]
      have hu' : dist.getD u 0 = -1 := not_not.mp hu
      have hulen : u < dist.length := lt_length_of_getD_ne (by rw [hu']; decide)
      have hvu : v ≠ u := by
        intro h
        rw [h, hu'] at hv0
        exact absurd hv0 (by decide)
      have hdv' : (dist.set u (dist.getD v 0 + 1)).getD v 0 = dist.getD v 0 :=
        getD_set_ne (fun h => hvu h.symm) _ _
      have hv0' : 0 ≤ (dist.set u (dist.getD v 0 + 1)).getD v 0 := by rw [hdv']; exact hv0
      have hsound' : ∀ w, w < (dist.set u (dist.getD v 0 + 1)).length →
          (dist.set u (dist.getD v 0 + 1)).getD w 0 ≠ -1 →
          ∃ k : Nat, reachN adj s k w ∧
            (dist.set u (dist.getD v 0 + 1)).getD w 0 = (k : Int) := by
        intro w hwlen hw
        by_cases hwu : u = w
        · subst hwu
          refine ⟨kv + 1, ⟨v, hkv, hus u (List.mem_cons_self _ _)⟩, ?_⟩
          rw [getD_set_self hulen, hdv]
          push_cast
          ring
        · rw [getD_set_ne hwu] at hw ⊢
          rw [List.length_set] at hwlen
          exact hsound w hwlen hw
      intro w hwlen hw
      exact ih _ hv0' (by rw [hdv']; exact hdv)
        (fun w hw => hus w (List.mem_cons_of_mem _ hw)) hsound' w
        (by rw [List.length_set]; exact hwlen) hw

/-! ## Properties of the traversal loop -/

theorem edgeB_iff {adj : List (List Nat)} {u v : Nat} :
    edgeB adj u v = true ↔ v ∈ adj.getD u [] := by
  simp [edgeB, List.contains, List.elem_iff]

theorem edge_src_lt {adj : List (List Nat)} {u v : Nat} (h : edgeB adj u v = true) :
    u < adj.length := by
  by_contra h'
  rw [edgeB, getD_oob (Nat.le_of_not_lt h')] at h
  simp [List.contains] at h

/-- Termination: with fuel at least the number of sentinel entries plus the
queue length, the traversal loop finishes (each iteration removes one queue
entry and turns each newly enqueued vertex's sentinel into a distance). -/
theorem bfsLoop_some (adj : List (List Nat)) :
    ∀ (fuel : Nat) (queue : List Nat) (dist : List Int), DistInv dist →
      dist.count (-1) + queue.length ≤ fuel →
      ∃ d, bfsLoop adj fuel queue dist = some d := by
  intro fuel
  induction fuel with
  | zero =>
    intro queue dist hinv hle
    cases queue with
    | nil => exact ⟨dist, rfl⟩
    | cons v rest =>
      simp only [List.length_cons] at hle
      omega
  | succ fuel ih =>
    intro queue dist hinv hle
    cases queue with
    | nil => exact ⟨dist, rfl⟩
    | cons v rest =>
      simp only [bfsLoop]
      have hc := visitNeighbours_count (adj.getD v []) v dist hinv
      apply ih
      · exact visitNeighbours_distInv _ _ _ hinv
      · simp only [List.length_append]
        simp only [List.length_cons] at hle
        omega

/-- Discovered entries survive the rest of the traversal unchanged. -/
theorem bfsLoop_stable (adj : List (List Nat)) :
    ∀ (fuel : Nat) (queue : List Nat) (dist d' : List Int),
      bfsLoop adj fuel queue dist = some d' →
      ∀ w, dist.getD w 0 ≠ -1 → d'.getD w 0 = dist.getD w 0 := by
  intro fuel
  induction fuel with
  | zero =>
    intro queue dist d' hrun w hw
    cases queue with
    | nil =>
      simp only [bfsLoop] at hrun
      obtain rfl := Option.some.inj hrun
      rfl
    | cons v rest =>
      simp only [bfsLoop] at hrun
      cases hrun
  | succ fuel ih =>
    intro queue dist d' hrun w hw
    cases queue with
    | nil =>
      simp only [bfsLoop] at hrun
      obtain rfl := Option.some.inj hrun
      rfl
    | cons v rest =>
      simp only [bfsLoop] at hrun
      have hst := visitNeighbours_stable (adj.getD v []) v dist hw
      rw [ih _ _ _ hrun w (by rw [hst]; exact hw), hst]

/-- The traversal loop never changes the number of distance slots. -/
theorem bfsLoop_length (adj : List (List Nat)) :
    ∀ (fuel : Nat) (queue : List Nat) (dist d' : List Int),
      bfsLoop adj fuel queue dist = some d' → d'.length = dist.length := by
  intro fuel
  induction fuel with
  | zero =>
    intro queue dist d' hrun
    cases queue with
    | nil =>
      simp only [bfsLoop] at hrun
      obtain rfl := Option.some.inj hrun
      rfl
    | cons v rest =>
      simp only [bfsLoop] at hrun
      cases hrun
  | succ fuel ih =>
    intro queue dist d' hrun
    cases queue with
    | nil =>
      simp only [bfsLoop] at hrun
      obtain rfl := Option.some.inj hrun
      rfl
    | cons v rest =>
      simp only [bfsLoop] at hrun
      rw [ih _ _ _ hrun]
      exact visitNeighbours_length ..

/-- The traversal loop preserves the distance-value invariant. -/
theorem bfsLoop_distInv (adj : List (List Nat)) :
    ∀ (fuel : Nat) (queue : List Nat) (dist d' : List Int),
      bfsLoop adj fuel queue dist = some d' → DistInv dist → DistInv d' := by
  intro fuel
  induction fuel with
  | zero =>
    intro queue dist d' hrun hinv
    cases queue with
    | nil =>
      simp only [bfsLoop] at hrun
      obtain rfl := Option.some.inj hrun
      exact hinv
    | cons v rest =>
      simp only [bfsLoop] at hrun
      cases hrun
  | succ fuel ih =>
    intro queue dist d' hrun hinv
    cases queue with
    | nil =>
      simp only [bfsLoop] at hrun
      obtain rfl := Option.some.inj hrun
      exact hinv
    | cons v rest =>
      simp only [bfsLoop] at hrun
      exact ih _ _ _ hrun (visitNeighbours_distInv _ _ _ hinv)

/-- One iteration of the traversal loop preserves the invariant. -/
theorem loopInv_step (adj : List (List Nat)) (s v : Nat) (rest : List Nat)
    (dist : List Int) (hinv : LoopInv adj s (v :: rest) dist) :
    LoopInv adj s (rest ++ (visitNeighbours (adj.getD v []) v dist).2)
      (visitNeighbours (adj.getD v []) v dist).1 := by
  obtain ⟨hlen, hsrc, hval, hqb, hsound, d, Q1, Q2, hq, h1, h2, hb, hcl⟩ := hinv
  have hvlt : v < dist.length := hqb v (List.mem_cons_self v rest)
  have hdv : dist.getD v 0 = (d : Int) ∨ dist.getD v 0 = (d : Int) + 1 := by
    have hvmem : v ∈ Q1 ++ Q2 := hq ▸ List.mem_cons_self v rest
    rcases List.mem_append.mp hvmem with h | h
    · exact Or.inl (h1 v h)
    · exact Or.inr (h2 v h)
  have hv0 : 0 ≤ dist.getD v 0 := by rcases hdv with h | h <;> omega
  have hvne : dist.getD v 0 ≠ -1 := by omega
  have hb' : ∀ w, dist.getD w 0 ≠ -1 → dist.getD w 0 ≤ dist.getD v 0 + 1 := by
    intro w hw
    have := hb w hw
    rcases hdv with h | h <;> omega
  have hV1 := visitNeighbours_length (adj.getD v []) v dist
  have hnew := visitNeighbours_new (adj.getD v []) v dist hv0
  have hcomp := visitNeighbours_complete (adj.getD v []) v dist hv0 hb'
  have hvv : (visitNeighbours (adj.getD v []) v dist).1.getD v 0 = dist.getD v 0 :=
    visitNeighbours_stable _ _ _ hvne
  -- the closure clause does not depend on the level counter; prove it once
  have hclosure : ∀ u, u < (visitNeighbours (adj.getD v []) v dist).1.length →
      (visitNeighbours (adj.getD v []) v dist).1.getD u 0 ≠ -1 →
      u ∉ rest ++ (visitNeighbours (adj.getD v []) v dist).2 →
      ∀ w ∈ adj.getD u [],
        (visitNeighbours (adj.getD v []) v dist).1.getD w 0 ≠ -1 ∧
        (visitNeighbours (adj.getD v []) v dist).1.getD w 0
          ≤ (visitNeighbours (adj.getD v []) v dist).1.getD u 0 + 1 := by
    intro u hul hud huq
    have hunw : u ∉ (visitNeighbours (adj.getD v []) v dist).2 :=
      fun h => huq (List.mem_append.mpr (Or.inr h))
    have hust : (visitNeighbours (adj.getD v []) v dist).1.getD u 0 = dist.getD u 0 :=
      visitNeighbours_not_mem _ _ _ hunw
    by_cases huv : u = v
    · subst huv
      intro w hw
      have := hcomp w hw
      rw [hust]
      exact this
    · have hurest : u ∉ rest := fun h => huq (List.mem_append.mpr (Or.inl h))
      have huq' : u ∉ v :: rest := by
        intro h
        rcases List.mem_cons.mp h with h | h
        · exact huv h
        · exact hurest h
      have hud' : dist.getD u 0 ≠ -1 := by rw [hust] at hud; exact hud
      intro w hw
      obtain ⟨hw1, hw2⟩ := hcl u (hV1 ▸ hul) hud' huq' w hw
      rw [hust, visitNeighbours_stable _ _ _ hw1]
      exact ⟨hw1, hw2⟩
  refine ⟨hV1 ▸ hlen, ?_, visitNeighbours_distInv _ _ _ hval, ?_, ?_, ?_⟩
  · rw [visitNeighbours_stable _ _ _ (by rw [hsrc]; decide)]
    exact hsrc
  · intro q hqm
    rw [hV1]
    rcases List.mem_append.mp hqm with h | h
    · exact hqb q (List.mem_cons_of_mem _ h)
    · exact (hnew q h).2.2.1
  · obtain ⟨kv, hkv, hdvk⟩ := hsound v hvlt hvne
    intro w hwl
    exact visitNeighbours_sound (adj.getD v []) v dist adj s kv hv0 hkv hdvk
      (fun u hu => edgeB_iff.mpr hu) hsound w (hV1 ▸ hwl)
  · -- the level structure, by cases on whether the first block is exhausted
    cases Q1 with
    | nil =>
      -- the dequeued vertex was at level `d + 1`: the frontier advances
      have hQ2 : Q2 = v :: rest := by simpa using hq.symm
      have hdvv : dist.getD v 0 = (d : Int) + 1 := h2 v (hQ2 ▸ List.mem_cons_self v rest)
      refine ⟨d + 1, rest, (visitNeighbours (adj.getD v []) v dist).2, rfl, ?_, ?_, ?_, ?_⟩
      · intro q hqm
        have hqd : dist.getD q 0 = (d : Int) + 1 :=
          h2 q (hQ2 ▸ List.mem_cons_of_mem _ hqm)
        rw [visitNeighbours_stable _ _ _ (by omega), hqd]
        push_cast
        ring
      · intro q hqm
        have := (hnew q hqm).2.2.2
        rw [this, hdvv]
        push_cast
        ring
      · intro w hw
        by_cases hwm : w ∈ (visitNeighbours (adj.getD v []) v dist).2
        · have := (hnew w hwm).2.2.2
          rw [this, hdvv]
          push_cast
          omega
        · rw [visitNeighbours_not_mem _ _ _ hwm] at hw ⊢
          have := hb w hw
          push_cast
          omega
      · exact hclosure
    | cons q Q1' =>
      -- the dequeued vertex was at level `d`: its block shrinks
      have hvq : v = q ∧ rest = Q1' ++ Q2 := by
        have := hq
        simp only [List.cons_append] at this
        exact ⟨(List.cons.injEq .. ▸ this).1, (List.cons.injEq .. ▸ this).2⟩
      obtain ⟨rfl, hrest⟩ := hvq
      have hdvv : dist.getD v 0 = (d : Int) := h1 v (List.mem_cons_self _ _)
      refine ⟨d, Q1', Q2 ++ (visitNeighbours (adj.getD v []) v dist).2, ?_, ?_, ?_, ?_, ?_⟩
      · rw [hrest, List.append_assoc]
      · intro p hpm
        have hpd : dist.getD p 0 = (d : Int) := h1 p (List.mem_cons_of_mem _ hpm)
        rw [visitNeighbours_stable _ _ _ (by omega), hpd]
      · intro p hpm
        rcases List.mem_append.mp hpm with h | h
        · have hpd : dist.getD p 0 = (d : Int) + 1 := h2 p h
          rw [visitNeighbours_stable _ _ _ (by omega), hpd]
        · have := (hnew p h).2.2.2
          rw [this, hdvv]
      · intro w hw
        by_cases hwm : w ∈ (visitNeighbours (adj.getD v []) v dist).2
        · have := (hnew w hwm).2.2.2
          rw [this, hdvv]
        · rw [visitNeighbours_not_mem _ _ _ hwm] at hw ⊢
          exact hb w hw
      · exact hclosure

/-- The invariant carries through a completed traversal loop. -/
theorem bfsLoop_inv (adj : List (List Nat)) (s : Nat) :
    ∀ (fuel : Nat) (queue : List Nat) (dist d' : List Int),
      LoopInv adj s queue dist → bfsLoop adj fuel queue dist = some d' →
      LoopInv adj s [] d' := by
  intro fuel
  induction fuel with
  | zero =>
    intro queue dist d' hinv hrun
    cases queue with
    | nil =>
      simp only [bfsLoop] at hrun
      obtain rfl := Option.some.inj hrun
      exact hinv
    | cons v rest =>
      simp only [bfsLoop] at hrun
      cases hrun
  | succ fuel ih =>
    intro queue dist d' hinv hrun
    cases queue with
    | nil =>
      simp only [bfsLoop] at hrun
      obtain rfl := Option.some.inj hrun
      exact hinv
    | cons v rest =>
      simp only [bfsLoop] at hrun
      exact ih _ _ _ (loopInv_step adj s v rest dist hinv) hrun

/-- The invariant holds when the loop starts on a fresh distance vector in
which only the source has been assigned (distance `0`). -/
theorem loopInv_init (adj : List (List Nat)) (s : Nat) (dist : List Int)
    (hlen : dist.length = adj.length) (hs : s < dist.length)
    (h : ∀ i, i < dist.length → dist.getD i 0 = if i = s then 0 else -1) :
    LoopInv adj s [s] dist := by
  have hsrc : dist.getD s 0 = 0 := by rw [h s hs, if_pos rfl]
  refine ⟨hlen, hsrc, ?_, ?_, ?_, 0, [s], [], rfl, ?_, ?_, ?_, ?_⟩
  · intro i
    by_cases hi : i < dist.length
    · rw [h i hi]
      split
      · right; decide
      · left; rfl
    · rw [getD_oob (Nat.le_of_not_lt hi)]
      right
      decide
  · intro q hq
    rw [List.mem_singleton.mp hq]
    exact hs
  · intro w hwl hw
    by_cases hws : w = s
    · subst hws
      exact ⟨0, rfl, by rw [hsrc]; rfl⟩
    · rw [h w hwl, if_neg hws] at hw
      exact absurd rfl hw
  · intro q hq
    rw [List.mem_singleton.mp hq, hsrc]
    rfl
  · intro q hq
    cases hq
  · intro w hw
    by_cases hwl : w < dist.length
    · rw [h w hwl] at hw ⊢
      by_cases hws : w = s
      · rw [if_pos hws]
        decide
      · rw [if_neg hws] at hw
        exact absurd rfl hw
    · rw [getD_oob (Nat.le_of_not_lt hwl)] at hw ⊢
      decide
  · intro u hul hud huq
    by_cases hus : u = s
    · exact absurd (hus ▸ List.mem_singleton_self s) huq
    · rw [h u hul, if_neg hus] at hud
      exact absurd rfl hud

/-- After the queue has drained, every vertex admitting a walk of `k` edges
from the source is discovered with distance at most `k`. -/
theorem loopInv_final_upper (adj : List (List Nat)) (s : Nat) (d' : List Int)
    (hinv : LoopInv adj s [] d') :
    ∀ (k v : Nat), reachN adj s k v → d'.getD v 0 ≠ -1 ∧ d'.getD v 0 ≤ (k : Int) := by
  intro k
  induction k with
  | zero =>
    intro v hv
    have hvs : v = s := hv
    subst hvs
    rw [hinv.src]
    exact ⟨by decide, by exact_mod_cast le_refl 0⟩
  | succ k ih =>
    intro v hv
    obtain ⟨u, hu, he⟩ := hv
    obtain ⟨hune, hule⟩ := ih u hu
    have hua : u < adj.length := edge_src_lt he
    have hud : u < d'.length := hinv.len_eq ▸ hua
    obtain ⟨_, _, _, _, _, _, _, hcl⟩ := hinv.level
    have hc := hcl u hud hune (List.not_mem_nil u) v (edgeB_iff.mp he)
    refine ⟨hc.1, ?_⟩
    have := hc.2
    push_cast
    omega

/-- After the queue has drained, the distance of every reachable in-range
vertex is the minimum number of edges of a walk from the source. -/
theorem loopInv_final_eq (adj : List (List Nat)) (s : Nat) (d' : List Int)
    (hinv : LoopInv adj s [] d') {v : Nat} (hvl : v < d'.length)
    (hreach : Reachable adj s v) :
    ∃ k : Nat, d'.getD v 0 = (k : Int) ∧ reachN adj s k v ∧
      ∀ j, reachN adj s j v → k ≤ j := by
  obtain ⟨k0, hk0⟩ := hreach
  have h1 := loopInv_final_upper adj s d' hinv k0 v hk0
  obtain ⟨k, hkr, hkd⟩ := hinv.sound v hvl h1.1
  refine ⟨k, hkd, hkr, ?_⟩
  intro j hj
  have h2 := (loopInv_final_upper adj s d' hinv j v hj).2
  rw [hkd] at h2
  exact_mod_cast h2

/-- After the queue has drained, undiscovered in-range vertices are exactly
the unreachable ones. -/
theorem loopInv_final_unreachable (adj : List (List Nat)) (s : Nat) (d' : List Int)
    (hinv : LoopInv adj s [] d') {v : Nat} (hvl : v < d'.length)
    (hreach : ¬ Reachable adj s v) :
    d'.getD v 0 = -1 := by
  by_contra h
  obtain ⟨k, hkr, _⟩ := hinv.sound v hvl h
  exact hreach ⟨k, hkr⟩

/-! ## Walks, paths, and length-indexed reachability -/

/-- A walk list of `k + 1` vertices yields length-indexed reachability. -/
theorem reachN_of_walk {adj : List (List Nat)} {s : Nat} :
    ∀ {p : List Nat} {v : Nat}, IsWalk adj s p v → reachN adj s (p.length - 1) v := by
  intro p
  induction p using List.reverseRecOn with
  | nil =>
    intro v h
    exact absurd h.1 (by simp)
  | append_singleton q a ih =>
    intro v h
    obtain ⟨hh, hl, hc⟩ := h
    have hav : a = v := by
      rw [List.getLast?_concat] at hl
      exact Option.some.inj hl
    subst hav
    cases q with
    | nil =>
      have has : a = s := by
        simp only [List.nil_append, List.head?_cons] at hh
        exact Option.some.inj hh
      subst has
      exact rfl
    | cons b q' =>
      have hbs : b = s := by
        simp only [List.cons_append, List.head?_cons] at hh
        exact Option.some.inj hh
      have hne : b :: q' ≠ [] := List.cons_ne_nil b q'
      have hlast := List.getLast?_eq_getLast (b :: q') hne
      obtain ⟨hc1, _, hedge⟩ := List.chain'_split.mp hc
      have hcq : List.Chain' (fun x y => edgeB adj x y = true) (b :: q') := by
        rcases List.chain'_append.mp hc1 with ⟨h', _, _⟩
        exact h'
      have hw : IsWalk adj s (b :: q') ((b :: q').getLast hne) :=
        ⟨by rw [List.head?_cons, hbs], hlast, hcq⟩
      have hr := ih hw
      have he : edgeB adj ((b :: q').getLast hne) a = true := by
        have h1 := List.chain'_append.mp hc
        rcases h1 with ⟨_, _, hx⟩
        exact hx _ hlast a (by simp)
      have : reachN adj s ((b :: q').length - 1 + 1) a :=
        ⟨(b :: q').getLast hne, hr, he⟩
      have hlen : (b :: q' ++ [a]).length - 1 = (b :: q').length - 1 + 1 := by
        simp
      rw [hlen]
      exact this

/-- Length-indexed reachability yields a walk list of `k + 1` vertices. -/
theorem walk_of_reachN {adj : List (List Nat)} {s : Nat} :
    ∀ {k v : Nat}, reachN adj s k v → ∃ p, IsWalk adj s p v ∧ p.length = k + 1 := by
  intro k
  induction k with
  | zero =>
    intro v hv
    have hvs : v = s := hv
    subst hvs
    exact ⟨[v], ⟨rfl, rfl, List.chain'_singleton v⟩, rfl⟩
  | succ k ih =>
    intro v hv
    obtain ⟨u, hu, he⟩ := hv
    obtain ⟨p, ⟨hh, hl, hc⟩, hlen⟩ := ih hu
    refine ⟨p ++ [v], ⟨?_, List.getLast?_concat p, ?_⟩, ?_⟩
    · rw [List.head?_append, hh]
      rfl
    · refine List.chain'_append.mpr ⟨hc, List.chain'_singleton v, ?_⟩
      intro x hx y hy
      rw [hl] at hx
      rw [List.head?_cons] at hy
      obtain rfl := Option.some.inj hx
      obtain rfl := Option.some.inj hy
      exact he
    · simp [hlen]

/-- A list that is not duplicate-free splits around a repeated element. -/
theorem exists_dup_split {l : List Nat} (h : ¬ l.Nodup) :
    ∃ (l₁ : List Nat) (a : Nat) (l₂ l₃ : List Nat),
      l = l₁ ++ a :: (l₂ ++ a :: l₃) := by
  induction l with
  | nil => exact absurd List.nodup_nil h
  | cons x t ih =>
    by_cases hx : x ∈ t
    · obtain ⟨l₂, l₃, rfl⟩ := List.append_of_mem hx
      exact ⟨[], x, l₂, l₃, rfl⟩
    · have ht : ¬ t.Nodup := fun hnd => h (List.nodup_cons.mpr ⟨hx, hnd⟩)
      obtain ⟨l₁, a, l₂, l₃, rfl⟩ := ih ht
      exact ⟨x :: l₁, a, l₂, l₃, rfl⟩

/-- Cutting the cycle between two occurrences of the same vertex keeps a
walk a walk. -/
theorem walk_splice {adj : List (List Nat)} {s v a : Nat} {l₁ l₂ l₃ : List Nat}
    (h : IsWalk adj s (l₁ ++ a :: (l₂ ++ a :: l₃)) v) :
    IsWalk adj s (l₁ ++ a :: l₃) v := by
  obtain ⟨hh, hl, hc⟩ := h
  obtain ⟨hc1, hc2⟩ := List.chain'_split.mp hc
  have hc2' : List.Chain' (fun x y => edgeB adj x y = true) ((a :: l₂) ++ a :: l₃) := by
    simpa using hc2
  have hc3 := (List.chain'_split.mp hc2').2
  refine ⟨?_, ?_, List.chain'_split.mpr ⟨hc1, hc3⟩⟩
  · rw [List.head?_append, List.head?_cons] at hh ⊢
    exact hh
  · rw [List.getLast?_append] at hl ⊢
    have h1 : a :: (l₂ ++ a :: l₃) = (a :: l₂) ++ (a :: l₃) := by simp
    rw [h1, List.getLast?_append] at hl
    rw [List.getLast?_eq_getLast (a :: l₃) (List.cons_ne_nil a l₃)] at hl ⊢
    simpa using hl

/-- Every walk contains a duplicate-free walk (a path) that is no longer. -/
theorem walk_to_path {adj : List (List Nat)} {s v : Nat} :
    ∀ (n : Nat) (p : List Nat), p.length ≤ n → IsWalk adj s p v →
      ∃ q, IsWalk adj s q v ∧ q.Nodup ∧ q.length ≤ p.length := by
  intro n
  induction n with
  | zero =>
    intro p hp hw
    rw [Nat.le_zero, List.length_eq_zero] at hp
    subst hp
    exact absurd hw.1 (by simp)
  | succ n ih =>
    intro p hp hw
    by_cases hnd : p.Nodup
    · exact ⟨p, hw, hnd, le_refl _⟩
    · obtain ⟨l₁, a, l₂, l₃, rfl⟩ := exists_dup_split hnd
      have hw' := walk_splice hw
      have hlt : (l₁ ++ a :: l₃).length ≤ n := by
        simp only [List.length_append, List.length_cons] at hp ⊢
        omega
      obtain ⟨q, hq, hqnd, hqle⟩ := ih _ hlt hw'
      refine ⟨q, hq, hqnd, le_trans hqle ?_⟩
      simp only [List.length_append, List.length_cons]
      omega

/-! ## Properties of graph construction -/

theorem fold_addVertex_dist (edges : List (Nat × Nat)) :
    ∀ g : Graph, (edges.foldl (fun g e => g.addVertex e.1 e.2) g).dist = g.dist := by
  induction edges with
  | nil => intro g; rfl
  | cons e rest ih => intro g; rw [List.foldl_cons, ih]; rfl

theorem fold_addVertex_ids (edges : List (Nat × Nat)) :
    ∀ g : Graph, (edges.foldl (fun g e => g.addVertex e.1 e.2) g).ids = g.ids := by
  induction edges with
  | nil => intro g; rfl
  | cons e rest ih => intro g; rw [List.foldl_cons, ih]; rfl

theorem fold_addVertex_adj_length (edges : List (Nat × Nat)) :
    ∀ g : Graph,
      (edges.foldl (fun g e => g.addVertex e.1 e.2) g).adj.length = g.adj.length := by
  induction edges with
  | nil => intro g; rfl
  | cons e rest ih =>
    intro g
    rw [List.foldl_cons, ih]
    exact List.length_set ..

theorem buildGraph_dist (n : Nat) (edges : List (Nat × Nat)) :
    (buildGraph n edges).dist = List.replicate (n + 1) (-1) :=
  fold_addVertex_dist edges (Graph.init n)

theorem buildGraph_ids (n : Nat) (edges : List (Nat × Nat)) :
    (buildGraph n edges).ids = List.range (n + 1) :=
  fold_addVertex_ids edges (Graph.init n)

theorem buildGraph_adj_length (n : Nat) (edges : List (Nat × Nat)) :
    (buildGraph n edges).adj.length = n + 1 := by
  rw [buildGraph, fold_addVertex_adj_length]
  exact List.length_replicate ..

theorem buildGraph_dist_length (n : Nat) (edges : List (Nat × Nat)) :
    (buildGraph n edges).dist.length = n + 1 := by
  rw [buildGraph_dist]
  exact List.length_replicate ..

/-- Membership in an adjacency list after `AddVertex`: either it was already
there or it is the added destination. -/
theorem addVertex_adj_mem {g : Graph} {o d v u : Nat}
    (h : u ∈ (g.addVertex o d).adj.getD v []) :
    u ∈ g.adj.getD v [] ∨ u = d := by
  unfold Graph.addVertex at h
  simp only at h
  by_cases hvo : o = v
  · subst hvo
    by_cases hlen : o < g.adj.length
    · rw [getD_set_self hlen] at h
      rcases List.mem_append.mp h with h' | h'
      · exact Or.inl h'
      · exact Or.inr (List.mem_singleton.mp h')
    · rw [List.set_eq_of_length_le (Nat.le_of_not_lt hlen)] at h
      exact Or.inl h
  · rw [getD_set_ne hvo] at h
    exact Or.inl h

/-- Every adjacency entry of a built graph is the destination of some input
edge. -/
theorem buildGraph_adj_mem (n : Nat) (edges : List (Nat × Nat)) :
    ∀ v u, u ∈ (buildGraph n edges).adj.getD v [] → ∃ e ∈ edges, u = e.2 := by
  have key : ∀ (es : List (Nat × Nat)) (g : Graph) (v u : Nat),
      u ∈ (es.foldl (fun g e => g.addVertex e.1 e.2) g).adj.getD v [] →
      u ∈ g.adj.getD v [] ∨ ∃ e ∈ es, u = e.2 := by
    intro es
    induction es with
    | nil => intro g v u h; exact Or.inl h
    | cons e rest ih =>
      intro g v u h
      rw [List.foldl_cons] at h
      rcases ih _ v u h with h' | ⟨e', he', rfl⟩
      · rcases addVertex_adj_mem h' with h'' | rfl
        · exact Or.inl h''
        · exact Or.inr ⟨e, List.mem_cons_self _ _, rfl⟩
      · exact Or.inr ⟨e', List.mem_cons_of_mem _ he', rfl⟩
  intro v u h
  rcases key edges (Graph.init n) v u h with h' | h'
  · exfalso
    unfold Graph.init at h'
    simp only at h'
    by_cases hv : v < n + 1
    · rw [getD_replicate (by simpa using hv)] at h'
      cases h'
    · rw [getD_oob (by simpa using Nat.le_of_not_lt hv)] at h'
      cases h'
  · exact h'

/-! ## The packaged traversal run on a freshly built graph -/

/-- The fresh start vector `dist.set s 0` of a built graph: `0` at the
source, sentinel elsewhere (in range). -/
theorem buildGraph_start_shape (n : Nat) (edges : List (Nat × Nat)) (s : Nat)
    (hsn : s ≤ n) :
    ∀ i, i < ((buildGraph n edges).dist.set s 0).length →
      ((buildGraph n edges).dist.set s 0).getD i 0 = if i = s then 0 else -1 := by
  intro i hi
  rw [List.length_set, buildGraph_dist_length] at hi
  by_cases his : i = s
  · subst his
    rw [if_pos rfl]
    exact getD_set_self (by rw [buildGraph_dist_length]; omega) _ _
  · rw [if_neg his, getD_set_ne (fun h => his h.symm), buildGraph_dist]
    exact getD_replicate hi _ _

/-- The fresh start vector satisfies the distance-value invariant. -/
theorem buildGraph_start_distInv (n : Nat) (edges : List (Nat × Nat)) (s : Nat)
    (hsn : s ≤ n) : DistInv ((buildGraph n edges).dist.set s 0) := by
  have hshape := buildGraph_start_shape n edges s hsn
  intro i
  by_cases hi : i < ((buildGraph n edges).dist.set s 0).length
  · rw [hshape i hi]
    by_cases his : i = s
    · rw [if_pos his]; right; decide
    · rw [if_neg his]; left; rfl
  · rw [getD_oob (Nat.le_of_not_lt hi)]
    right
    decide

/-- Master lemma: `BreadthFirstSearch` on a freshly built graph returns a
result whose distance vector satisfies the drained-queue invariant. -/
theorem breadthFirstSearch_builds (n : Nat) (edges : List (Nat × Nat)) (s : Nat)
    (hsn : s ≤ n) :
    ∃ d', (buildGraph n edges).breadthFirstSearch s
        = some { buildGraph n edges with dist := d' } ∧
      d'.length = n + 1 ∧ LoopInv (buildGraph n edges).adj s [] d' ∧
      bfsLoop (buildGraph n edges).adj (bfsFuel ((buildGraph n edges).dist.set s 0))
        [s] ((buildGraph n edges).dist.set s 0) = some d' := by
  have hlen0 : ((buildGraph n edges).dist.set s 0).length = n + 1 := by
    rw [List.length_set]
    exact buildGraph_dist_length n edges
  have hshape := buildGraph_start_shape n edges s hsn
  have hDI : DistInv ((buildGraph n edges).dist.set s 0) :=
    buildGraph_start_distInv n edges s hsn
  have hinit : LoopInv (buildGraph n edges).adj s [s] ((buildGraph n edges).dist.set s 0) := by
    apply loopInv_init
    · rw [hlen0, buildGraph_adj_length]
    · rw [hlen0]; omega
    · exact hshape
  obtain ⟨d', hd'⟩ := bfsLoop_some (buildGraph n edges).adj
    (bfsFuel ((buildGraph n edges).dist.set s 0)) [s]
    ((buildGraph n edges).dist.set s 0) hDI (by rw [bfsFuel]; simp)
  refine ⟨d', ?_, ?_, bfsLoop_inv _ _ _ _ _ _ hinit hd', hd'⟩
  · rw [Graph.breadthFirstSearch]
    rw [hd']
    rfl
  · rw [bfsLoop_length _ _ _ _ _ hd']
    exact hlen0

/-! ## Sanity checks on the spec's worked examples -/

theorem sanity_example_distances :
    ((buildGraph 4 [(1, 2), (1, 3), (3, 4)]).breadthFirstSearch 1).map Graph.dist
      = some [-1, 0, 1, 1, 2] := by decide

theorem sanity_example_unreachable :
    ((buildGraph 3 [(2, 3)]).breadthFirstSearch 1).map Graph.dist
      = some [-1, 0, -1, -1] := by decide

theorem sanity_example_self_loop :
    ((buildGraph 1 [(1, 1)]).breadthFirstSearch 1).map Graph.dist
      = some [-1, 0] := by decide

/-! ## Claim theorems -/

theorem walk_length_pos {adj : List (List Nat)} {s : Nat} {p : List Nat} {v : Nat}
    (h : IsWalk adj s p v) : 1 ≤ p.length := by
  cases p with
  | nil => exact absurd h.1 (by simp)
  | cons a t => simp

/-- C1: for every graph built from in-range input (`N` vertices, edge
endpoints in `[1, N]`) and every source `s ∈ [1, N]`, after
`Graph::BreadthFirstSearch(s)` the distance field of every vertex reachable
from `s` equals the length in edges of the shortest directed path from `s`
to that vertex. -/
theorem bfs_shortest_path_distance (n : Nat) (edges : List (Nat × Nat)) (s v : Nat)
    (hrange : EdgesInRange n edges) (hs1 : 1 ≤ s) (hsn : s ≤ n) (hvn : v ≤ n)
    (hreach : Reachable (buildGraph n edges).adj s v) :
    ∃ (g' : Graph) (k : Nat), (buildGraph n edges).breadthFirstSearch s = some g' ∧
      g'.dist.getD v 0 = (k : Int) ∧
      IsShortestPathLen (buildGraph n edges).adj s v k := by
  obtain ⟨d', hrun, hdlen, hinv, hloopeq⟩ := breadthFirstSearch_builds n edges s hsn
  have hvl : v < d'.length := by omega
  obtain ⟨k, hdk, hkr, hkmin⟩ := loopInv_final_eq _ _ _ hinv hvl hreach
  refine ⟨_, k, hrun, hdk, ?_, ?_⟩
  · obtain ⟨p, hp, hplen⟩ := walk_of_reachN hkr
    obtain ⟨q, hq, hqnd, hqle⟩ := walk_to_path p.length p (le_refl _) hp
    have h1 : 1 ≤ q.length := walk_length_pos hq
    have h2 := hkmin _ (reachN_of_walk hq)
    exact ⟨q, hq, hqnd, by omega⟩
  · intro p hp hnd
    have h2 := hkmin _ (reachN_of_walk hp)
    have h1 := walk_length_pos hp
    omega

/-- C3: for every graph with in-range edge endpoints — self-loops and
duplicate edges included — and every source `s ∈ [1, N]`, the traversal
terminates (the fuelled loop returns a result within its fuel bound), and
the source's distance ends at `0`; in particular a self-loop `(s, s)`
neither diverges nor changes the source's distance. -/
theorem bfs_terminates (n : Nat) (edges : List (Nat × Nat)) (s : Nat)
    (hrange : EdgesInRange n edges) (hs1 : 1 ≤ s) (hsn : s ≤ n) :
    ∃ g', (buildGraph n edges).breadthFirstSearch s = some g' ∧
      g'.dist.getD s 0 = 0 := by
  obtain ⟨d', hrun, hdlen, hinv, hloopeq⟩ := breadthFirstSearch_builds n edges s hsn
  exact ⟨_, hrun, hinv.src⟩

/-- C4: for every graph built from in-range input and every source
`s ∈ [1, N]`, every vertex with no directed path from `s` still holds the
sentinel `-1` it was initialised with. -/
theorem bfs_unreachable_keeps_sentinel (n : Nat) (edges : List (Nat × Nat)) (s v : Nat)
    (hrange : EdgesInRange n edges) (hs1 : 1 ≤ s) (hsn : s ≤ n) (hvn : v ≤ n)
    (hunreach : ¬ Reachable (buildGraph n edges).adj s v) :
    ((buildGraph n edges).breadthFirstSearch s).map (fun g' => g'.dist.getD v 0)
      = some (-1) := by
  obtain ⟨d', hrun, hdlen, hinv, hloopeq⟩ := breadthFirstSearch_builds n edges s hsn
  rw [hrun, Option.map_some']
  exact congrArg some (loopInv_final_unreachable _ _ _ hinv (by omega) hunreach)

/-- C5: for every graph built from in-range input and every source
`s ∈ [1, N]`, after the traversal the source's distance is `0`. -/
theorem bfs_source_distance_zero (n : Nat) (edges : List (Nat × Nat)) (s : Nat)
    (hrange : EdgesInRange n edges) (hs1 : 1 ≤ s) (hsn : s ≤ n) :
    ((buildGraph n edges).breadthFirstSearch s).map (fun g' => g'.dist.getD s 0)
      = some 0 := by
  obtain ⟨d', hrun, hdlen, hinv, hloopeq⟩ := breadthFirstSearch_builds n edges s hsn
  rw [hrun, Option.map_some']
  exact congrArg some hinv.src

/-- C9: `Graph::BreadthFirstSearch` only writes distance fields: the ids,
the adjacency structure (edge lists and their order), the slot count and
the vertex count are unchanged by a completed traversal. -/
theorem bfs_frame (g : Graph) (s : Nat) (g' : Graph)
    (h : g.breadthFirstSearch s = some g') :
    g'.ids = g.ids ∧ g'.adj = g.adj ∧ g'.dist.length = g.dist.length ∧
      g'.numberOfVertices = g.numberOfVertices := by
  simp only [Graph.breadthFirstSearch] at h
  cases hrun : bfsLoop g.adj (bfsFuel (g.dist.set s 0)) [s] (g.dist.set s 0) with
  | none =>
    rw [hrun] at h
    cases h
  | some d' =>
    rw [hrun, Option.map_some'] at h
    obtain rfl := (Option.some.inj h).symm
    have hl : d'.length = g.dist.length := by
      rw [bfsLoop_length _ _ _ _ _ hrun]
      exact List.length_set ..
    exact ⟨rfl, rfl, hl, by unfold Graph.numberOfVertices; rw [hl]⟩

/-- C10: the computation is deterministic — identical parsed inputs give
identical graphs, identical traversal results and identical output
strings.  (The embedding is a pure function of the parsed input.) -/
theorem program_deterministic (n₁ n₂ : Nat) (edges₁ edges₂ : List (Nat × Nat))
    (s₁ s₂ : Nat) (hn : n₁ = n₂) (he : edges₁ = edges₂) (hs : s₁ = s₂) :
    buildGraph n₁ edges₁ = buildGraph n₂ edges₂ ∧
      (buildGraph n₁ edges₁).breadthFirstSearch s₁
        = (buildGraph n₂ edges₂).breadthFirstSearch s₂ ∧
      runProgram n₁ edges₁ s₁ = runProgram n₂ edges₂ s₂ := by
  subst hn
  subst he
  subst hs
  exact ⟨rfl, rfl, rfl⟩

theorem set_of_getD_eq {α : Type} {l : List α} {i : Nat} {a : α} {d : α}
    (hi : i < l.length) (h : l.getD i d = a) : l.set i a = l := by
  apply List.ext_getElem?
  intro j
  by_cases hij : i = j
  · subst hij
    rw [List.getElem?_set_self hi, List.getElem?_eq_getElem hi]
    rw [List.getD_eq_getElem?_getD, List.getElem?_eq_getElem hi] at h
    simp only [Option.getD_some] at h
    rw [h]
  · rw [List.getElem?_set_ne hij]

/-- C7: running `BreadthFirstSearch` a second time with the same source on
the unmodified graph returns the graph unchanged: every distance field
keeps its value from the first run.  (The second run re-assigns `0` to the
source, which already holds `0`, and every neighbour scan is a no-op since
all neighbours of dequeued vertices are already discovered.) -/
theorem bfs_idempotent (n : Nat) (edges : List (Nat × Nat)) (s : Nat)
    (hrange : EdgesInRange n edges) (hs1 : 1 ≤ s) (hsn : s ≤ n) (g₁ : Graph)
    (h1 : (buildGraph n edges).breadthFirstSearch s = some g₁) :
    g₁.breadthFirstSearch s = some g₁ := by
  obtain ⟨d', hrun, hdlen, hinv, hloopeq⟩ := breadthFirstSearch_builds n edges s hsn
  rw [hrun] at h1
  obtain rfl := Option.some.inj h1
  simp only [Graph.breadthFirstSearch]
  have hs' : s < d'.length := by omega
  have hset : d'.set s 0 = d' := set_of_getD_eq hs' hinv.src
  rw [hset]
  have hnb : ∀ u ∈ (buildGraph n edges).adj.getD s [], d'.getD u 0 ≠ -1 := by
    obtain ⟨d0, Q1, Q2, hq, hb1, hb2, hb, hcl⟩ := hinv.level
    intro u hu
    exact (hcl s (by omega) (by rw [hinv.src]; decide) (List.not_mem_nil s) u hu).1
  rw [bfsFuel]
  simp only [bfsLoop]
  rw [visitNeighbours_all_discovered _ _ _ hnb]
  simp only [List.nil_append]
  cases hcount : d'.count (-1) with
  | zero => rfl
  | succ m => simp only [bfsLoop]; rfl

/-- The instrumented loop computes the same distances as the plain loop. -/
theorem bfsLoopT_fst (adj : List (List Nat)) :
    ∀ (fuel : Nat) (queue : List Nat) (dist : List Int),
      (bfsLoopT adj fuel queue dist).map Prod.fst = bfsLoop adj fuel queue dist := by
  intro fuel
  induction fuel with
  | zero =>
    intro queue dist
    cases queue with
    | nil => rfl
    | cons v rest => rfl
  | succ fuel ih =>
    intro queue dist
    cases queue with
    | nil => rfl
    | cons v rest =>
      simp only [bfsLoopT, bfsLoop, Option.map_map]
      rw [← ih]
      rfl

/-- Trace soundness: every traced vertex was undiscovered when the loop
started from a state whose queued vertices are all discovered, and is
discovered at the end; no vertex is traced twice. -/
theorem bfsLoopT_trace (adj : List (List Nat)) :
    ∀ (fuel : Nat) (queue : List Nat) (dist d' : List Int) (tr : List Nat),
      DistInv dist → (∀ q ∈ queue, dist.getD q 0 ≠ -1) →
      bfsLoopT adj fuel queue dist = some (d', tr) →
      tr.Nodup ∧ ∀ u ∈ tr, dist.getD u 0 = -1 ∧ d'.getD u 0 ≠ -1 := by
  intro fuel
  induction fuel with
  | zero =>
    intro queue dist d' tr hDI hq hrun
    cases queue with
    | nil =>
      simp only [bfsLoopT] at hrun
      obtain ⟨rfl, rfl⟩ := Prod.mk.injEq .. |>.mp (Option.some.inj hrun)
      exact ⟨List.nodup_nil, fun u hu => absurd hu (List.not_mem_nil u)⟩
    | cons v rest =>
      simp only [bfsLoopT] at hrun
      cases hrun
  | succ fuel ih =>
    intro queue dist d' tr hDI hq hrun
    cases queue with
    | nil =>
      simp only [bfsLoopT] at hrun
      obtain ⟨rfl, rfl⟩ := Prod.mk.injEq .. |>.mp (Option.some.inj hrun)
      exact ⟨List.nodup_nil, fun u hu => absurd hu (List.not_mem_nil u)⟩
    | cons v rest =>
      simp only [bfsLoopT] at hrun
      cases hrec : bfsLoopT adj fuel (rest ++ (visitNeighbours (adj.getD v []) v dist).2)
          (visitNeighbours (adj.getD v []) v dist).1 with
      | none =>
        rw [hrec] at hrun
        cases hrun
      | some p =>
        obtain ⟨pd, ptr⟩ := p
        rw [hrec, Option.map_some'] at hrun
        obtain ⟨hpd, hptr⟩ := Prod.mk.injEq .. |>.mp (Option.some.inj hrun)
        subst hpd
        subst hptr
        have hv0 : 0 ≤ dist.getD v 0 := by
          have h1 := hq v (List.mem_cons_self v rest)
          rcases hDI v with h | h
          · exact absurd h h1
          · exact h
        have hnew := visitNeighbours_new (adj.getD v []) v dist hv0
        have hDI' := visitNeighbours_distInv (adj.getD v []) v dist hDI
        have hq' : ∀ q ∈ rest ++ (visitNeighbours (adj.getD v []) v dist).2,
            (visitNeighbours (adj.getD v []) v dist).1.getD q 0 ≠ -1 := by
          intro q hqm
          rcases List.mem_append.mp hqm with h | h
          · have hq1 := hq q (List.mem_cons_of_mem _ h)
            rw [visitNeighbours_stable _ _ _ hq1]
            exact hq1
          · rw [(hnew q h).2.2.2]
            omega
        obtain ⟨hnd, hmem⟩ := ih _ _ _ _ hDI' hq' hrec
        have hplain : bfsLoop adj fuel (rest ++ (visitNeighbours (adj.getD v []) v dist).2)
            (visitNeighbours (adj.getD v []) v dist).1 = some pd := by
          rw [← bfsLoopT_fst, hrec]
          rfl
        constructor
        · rw [List.nodup_append]
          refine ⟨visitNeighbours_nodup _ _ _ hv0, hnd, ?_⟩
          intro u hu hu'
          have h1 := (hnew u hu).2.2.2
          have h2 := (hmem u hu').1
          omega
        · intro u hu
          rcases List.mem_append.mp hu with h | h
          · obtain ⟨_, hu1, _, hu2⟩ := hnew u h
            refine ⟨hu1, ?_⟩
            have hne : (visitNeighbours (adj.getD v []) v dist).1.getD u 0 ≠ -1 := by
              rw [hu2]
              omega
            have hst := bfsLoop_stable adj fuel _ _ _ hplain u hne
            rw [hst, hu2]
            omega
          · obtain ⟨hu1, hu2⟩ := hmem u h
            refine ⟨?_, hu2⟩
            by_contra hne
            rw [visitNeighbours_stable _ _ _ hne] at hu1
            exact hne hu1

/-- Trace completeness: every vertex discovered during the loop appears in
the trace. -/
theorem bfsLoopT_covers (adj : List (List Nat)) :
    ∀ (fuel : Nat) (queue : List Nat) (dist d' : List Int) (tr : List Nat),
      bfsLoopT adj fuel queue dist = some (d', tr) →
      ∀ u, d'.getD u 0 ≠ -1 → dist.getD u 0 ≠ -1 ∨ u ∈ tr := by
  intro fuel
  induction fuel with
  | zero =>
    intro queue dist d' tr hrun u hu
    cases queue with
    | nil =>
      simp only [bfsLoopT] at hrun
      obtain ⟨rfl, rfl⟩ := Prod.mk.injEq .. |>.mp (Option.some.inj hrun)
      exact Or.inl hu
    | cons v rest =>
      simp only [bfsLoopT] at hrun
      cases hrun
  | succ fuel ih =>
    intro queue dist d' tr hrun u hu
    cases queue with
    | nil =>
      simp only [bfsLoopT] at hrun
      obtain ⟨rfl, rfl⟩ := Prod.mk.injEq .. |>.mp (Option.some.inj hrun)
      exact Or.inl hu
    | cons v rest =>
      simp only [bfsLoopT] at hrun
      cases hrec : bfsLoopT adj fuel (rest ++ (visitNeighbours (adj.getD v []) v dist).2)
          (visitNeighbours (adj.getD v []) v dist).1 with
      | none =>
        rw [hrec] at hrun
        cases hrun
      | some p =>
        obtain ⟨pd, ptr⟩ := p
        rw [hrec, Option.map_some'] at hrun
        obtain ⟨hpd, hptr⟩ := Prod.mk.injEq .. |>.mp (Option.some.inj hrun)
        subst hpd
        subst hptr
        rcases ih _ _ _ _ hrec u hu with h | h
        · by_cases hm : u ∈ (visitNeighbours (adj.getD v []) v dist).2
          · exact Or.inr (List.mem_append.mpr (Or.inl hm))
          · rw [visitNeighbours_not_mem _ _ _ hm] at h
            exact Or.inl h
        · exact Or.inr (List.mem_append.mpr (Or.inr h))

/-- C6: during a single run on a freshly built graph every vertex is pushed
onto the FIFO queue at most once, and a vertex's distance is assigned a
non-sentinel value (on the line preceding its push) exactly when it appears
in the trace — exactly once for each discovered vertex, never otherwise. -/
theorem bfs_pushes_each_vertex_at_most_once (n : Nat) (edges : List (Nat × Nat)) (s : Nat)
    (hrange : EdgesInRange n edges) (hs1 : 1 ≤ s) (hsn : s ≤ n) :
    ∃ (g' : Graph) (tr : List Nat),
      (buildGraph n edges).breadthFirstSearchTrace s = some (g', tr) ∧
      tr.Nodup ∧
      ∀ v, v ∈ tr ↔ (v < n + 1 ∧ g'.dist.getD v 0 ≠ -1) := by
  obtain ⟨d', hrun, hdlen, hinv, hloopeq⟩ := breadthFirstSearch_builds n edges s hsn
  have hshape := buildGraph_start_shape n edges s hsn
  have hDI := buildGraph_start_distInv n edges s hsn
  have hlen0 : ((buildGraph n edges).dist.set s 0).length = n + 1 := by
    rw [List.length_set]
    exact buildGraph_dist_length n edges
  have hs0 : ((buildGraph n edges).dist.set s 0).getD s 0 = 0 := by
    rw [hshape s (by omega)]
    exact if_pos rfl
  cases hT : bfsLoopT (buildGraph n edges).adj
      (bfsFuel ((buildGraph n edges).dist.set s 0)) [s]
      ((buildGraph n edges).dist.set s 0) with
  | none =>
    exfalso
    have := bfsLoopT_fst (buildGraph n edges).adj
      (bfsFuel ((buildGraph n edges).dist.set s 0)) [s]
      ((buildGraph n edges).dist.set s 0)
    rw [hT, hloopeq] at this
    cases this
  | some p =>
    obtain ⟨pd, ptr⟩ := p
    have hpd : pd = d' := by
      have := bfsLoopT_fst (buildGraph n edges).adj
        (bfsFuel ((buildGraph n edges).dist.set s 0)) [s]
        ((buildGraph n edges).dist.set s 0)
      rw [hT, hloopeq] at this
      exact Option.some.inj this
    subst hpd
    have hq0 : ∀ q ∈ [s], ((buildGraph n edges).dist.set s 0).getD q 0 ≠ -1 := by
      intro q hq
      rw [List.mem_singleton.mp hq, hs0]
      decide
    obtain ⟨hnd, hmem⟩ := bfsLoopT_trace _ _ _ _ _ _ hDI hq0 hT
    refine ⟨{ buildGraph n edges with dist := pd }, s :: ptr, ?_, ?_, ?_⟩
    · simp only [Graph.breadthFirstSearchTrace]
      rw [hT, Option.map_some']
    · refine List.nodup_cons.mpr ⟨?_, hnd⟩
      intro hs'
      have := (hmem s hs').1
      rw [hs0] at this
      cases this
    · intro v
      constructor
      · intro hv
        rcases List.mem_cons.mp hv with rfl | hv'
        · refine ⟨by omega, ?_⟩
          show pd.getD v 0 ≠ -1
          rw [hinv.src]
          decide
        · obtain ⟨hv1, hv2⟩ := hmem v hv'
          refine ⟨?_, hv2⟩
          have := lt_length_of_getD_ne (l := (buildGraph n edges).dist.set s 0)
            (i := v) (d := 0) (by rw [hv1]; decide)
          omega
      · rintro ⟨hvn, hvd⟩
        rcases bfsLoopT_covers _ _ _ _ _ _ hT v hvd with h | h
        · rw [hshape v (by omega)] at h
          by_cases hvs : v = s
          · exact hvs ▸ List.mem_cons_self _ _
          · rw [if_neg hvs] at h
            exact absurd rfl h
        · exact List.mem_cons_of_mem _ h

theorem addVertexChecked_eq {g : Graph} {o d : Nat}
    (ho : o < g.adj.length) (hd : d < g.adj.length) :
    g.addVertexChecked o d = some (g.addVertex o d) := by
  rw [Graph.addVertexChecked, if_pos ⟨ho, hd⟩]
  rfl

theorem addVertex_adj_length (g : Graph) (o d : Nat) :
    (g.addVertex o d).adj.length = g.adj.length :=
  List.length_set ..

theorem buildGraphChecked_eq (n : Nat) (edges : List (Nat × Nat))
    (hrange : ∀ e ∈ edges, e.1 ≤ n ∧ e.2 ≤ n) :
    buildGraphChecked n edges = some (buildGraph n edges) := by
  have key : ∀ (es : List (Nat × Nat)) (g : Graph), g.adj.length = n + 1 →
      (∀ e ∈ es, e.1 ≤ n ∧ e.2 ≤ n) →
      es.foldl (fun og e => og.bind (fun g => g.addVertexChecked e.1 e.2)) (some g)
        = some (es.foldl (fun g e => g.addVertex e.1 e.2) g) := by
    intro es
    induction es with
    | nil => intro g _ _; rfl
    | cons e rest ih =>
      intro g hlen hr
      rw [List.foldl_cons, List.foldl_cons, Option.some_bind]
      obtain ⟨h1, h2⟩ := hr e (List.mem_cons_self _ _)
      rw [addVertexChecked_eq (by omega) (by omega)]
      exact ih _ (by rw [addVertex_adj_length, hlen])
        (fun e' he' => hr e' (List.mem_cons_of_mem _ he'))
  have hlen : (Graph.init n).adj.length = n + 1 := by
    simp [Graph.init]
  exact key edges (Graph.init n) hlen hrange

theorem bfsChecked_eq {g : Graph} {s : Nat} (hs : s < g.dist.length) :
    g.breadthFirstSearchChecked s = g.breadthFirstSearch s := by
  rw [Graph.breadthFirstSearchChecked, if_pos hs]

theorem printLoopChecked_eq (g : Graph) :
    ∀ (idxs : List Nat) (st : OStream), (∀ i ∈ idxs, i < g.dist.length) →
      printLoopChecked g idxs st
        = some (idxs.foldl
            (fun st i => (st.write (toString (g.dist.getD i 0)).data).write [' ']) st) := by
  intro idxs
  induction idxs with
  | nil => intro st _; rfl
  | cons i rest ih =>
    intro st hb
    have hi : i < g.dist.length := hb i (List.mem_cons_self _ _)
    have hget : g.dist.get? i = some (g.dist.getD i 0) := by
      rw [List.get?_eq_getElem?, List.getElem?_eq_getElem hi,
        List.getD_eq_getElem?_getD, List.getElem?_eq_getElem hi]
      rfl
    rw [printLoopChecked, hget, List.foldl_cons]
    exact ih _ (fun j hj => hb j (List.mem_cons_of_mem _ hj))

theorem printDistancesChecked_eq (g : Graph) :
    g.printDistancesChecked = some g.printDistances := by
  rw [Graph.printDistancesChecked, printLoopChecked_eq]
  · rfl
  · intro i hi
    rw [List.mem_range'_1] at hi
    unfold Graph.numberOfVertices at hi
    omega

/-- C8: under the documented precondition — every edge endpoint and the
source id lie in `[0, N]`, where the graph holds `N + 1` vertex slots —
every vector index performed by `Graph::AddVertex`,
`Graph::BreadthFirstSearch`, `Vertex::operator[]` and
`Graph::PrintDistances` is in bounds: the checked embedding, whose
out-of-bounds branch returns `none`, agrees with the total embedding and
returns a result.  (`Vertex::operator[]`'s `edges[i]` is kept in bounds by
its loop guard `i < GetNumberOfEdges()`; no range validation is performed
anywhere, so nothing rules these indices out but this precondition.) -/
theorem program_accesses_in_bounds (n : Nat) (edges : List (Nat × Nat)) (s : Nat)
    (hrange : ∀ e ∈ edges, e.1 ≤ n ∧ e.2 ≤ n) (hs : s ≤ n) :
    runProgramChecked n edges s = runProgram n edges s ∧
      (runProgramChecked n edges s).isSome := by
  obtain ⟨d', hrun, hdlen, hinv, hloopeq⟩ := breadthFirstSearch_builds n edges s hs
  have h1 : buildGraphChecked n edges = some (buildGraph n edges) :=
    buildGraphChecked_eq n edges hrange
  have hsd : s < (buildGraph n edges).dist.length := by
    rw [buildGraph_dist_length]
    omega
  have h2 : (buildGraph n edges).breadthFirstSearchChecked s
      = (buildGraph n edges).breadthFirstSearch s := bfsChecked_eq hsd
  have hchk : runProgramChecked n edges s
      = some (Graph.printDistances { buildGraph n edges with dist := d' }) := by
    rw [runProgramChecked, h1, Option.some_bind, h2, hrun, Option.some_bind]
    exact printDistancesChecked_eq _
  constructor
  · rw [hchk, runProgram, hrun, Option.map_some']
  · rw [hchk]
    exact Option.isSome_some

/-- C2 (evaluation at the failing input): on the spec's own worked example
(`N = 4`, edges `(1,2) (1,3) (3,4)`, source `1`) the program's output
string is `"0 1 1 2 "` — the distances in vertex order separated by single
spaces, but with a trailing space and no newline.  The single-argument
`seekp(-1)` seeks to absolute position `-1`, which is invalid, so it sets
the stream's fail bit and the subsequent `"\n"` write is discarded. -/
theorem printDistances_lacks_newline :
    runProgram 4 [(1, 2), (1, 3), (3, 4)] 1 = some "0 1 1 2 " ∧
      "0 1 1 2 ".data.getLast? = some ' ' ∧ '\n' ∉ "0 1 1 2 ".data := by
  refine ⟨by rfl, by rfl, by decide⟩

/-! ## Witnesses: the claim theorems applied at concrete inputs -/

theorem bfs_shortest_path_distance_witness :
    EdgesInRange 4 [(1, 2), (1, 3), (3, 4)] ∧ 1 ≤ (1 : Nat) ∧ (1 : Nat) ≤ 4 ∧ (4 : Nat) ≤ 4 ∧
      Reachable (buildGraph 4 [(1, 2), (1, 3), (3, 4)]).adj 1 4 ∧
      ∃ (g' : Graph) (k : Nat),
        (buildGraph 4 [(1, 2), (1, 3), (3, 4)]).breadthFirstSearch 1 = some g' ∧
        g'.dist.getD 4 0 = (k : Int) ∧
        IsShortestPathLen (buildGraph 4 [(1, 2), (1, 3), (3, 4)]).adj 1 4 k := by
  have hreach : Reachable (buildGraph 4 [(1, 2), (1, 3), (3, 4)]).adj 1 4 :=
    ⟨2, 3, ⟨1, rfl, by decide⟩, by decide⟩
  exact ⟨by unfold EdgesInRange; decide, by decide, by decide, by decide, hreach,
    bfs_shortest_path_distance 4 [(1, 2), (1, 3), (3, 4)] 1 4 (by first | decide | unfold EdgesInRange; decide) (by first | decide | unfold EdgesInRange; decide)
      (by first | decide | unfold EdgesInRange; decide) (by first | decide | unfold EdgesInRange; decide) hreach⟩

theorem bfs_terminates_witness :
    EdgesInRange 1 [(1, 1)] ∧ 1 ≤ (1 : Nat) ∧ (1 : Nat) ≤ 1 ∧
      ∃ g', (buildGraph 1 [(1, 1)]).breadthFirstSearch 1 = some g' ∧
        g'.dist.getD 1 0 = 0 :=
  ⟨by unfold EdgesInRange; decide, by decide, by decide,
    bfs_terminates 1 [(1, 1)] 1 (by first | decide | unfold EdgesInRange; decide) (by first | decide | unfold EdgesInRange; decide) (by first | decide | unfold EdgesInRange; decide)⟩

theorem bfs_unreachable_keeps_sentinel_witness :
    EdgesInRange 3 [(2, 3)] ∧ 1 ≤ (1 : Nat) ∧ (1 : Nat) ≤ 3 ∧ (2 : Nat) ≤ 3 ∧
      ¬ Reachable (buildGraph 3 [(2, 3)]).adj 1 2 ∧
      ((buildGraph 3 [(2, 3)]).breadthFirstSearch 1).map (fun g' => g'.dist.getD 2 0)
        = some (-1) := by
  have hne : ∀ u, edgeB (buildGraph 3 [(2, 3)]).adj u 2 ≠ true := by
    intro u h
    have hu := edge_src_lt h
    rw [buildGraph_adj_length] at hu
    interval_cases u <;> revert h <;> decide
  have hunreach : ¬ Reachable (buildGraph 3 [(2, 3)]).adj 1 2 := by
    rintro ⟨k, hk⟩
    cases k with
    | zero =>
      have h2 : (2 : Nat) = 1 := hk
      exact absurd h2 (by first | decide | unfold EdgesInRange; decide)
    | succ k =>
      obtain ⟨u, _, he⟩ := hk
      exact hne u he
  exact ⟨by unfold EdgesInRange; decide, by decide, by decide, by decide, hunreach,
    bfs_unreachable_keeps_sentinel 3 [(2, 3)] 1 2 (by first | decide | unfold EdgesInRange; decide) (by first | decide | unfold EdgesInRange; decide) (by first | decide | unfold EdgesInRange; decide)
      (by first | decide | unfold EdgesInRange; decide) hunreach⟩

theorem bfs_source_distance_zero_witness :
    EdgesInRange 2 [(1, 2)] ∧ 1 ≤ (1 : Nat) ∧ (1 : Nat) ≤ 2 ∧
      ((buildGraph 2 [(1, 2)]).breadthFirstSearch 1).map (fun g' => g'.dist.getD 1 0)
        = some 0 :=
  ⟨by unfold EdgesInRange; decide, by decide, by decide,
    bfs_source_distance_zero 2 [(1, 2)] 1 (by first | decide | unfold EdgesInRange; decide) (by first | decide | unfold EdgesInRange; decide) (by first | decide | unfold EdgesInRange; decide)⟩

theorem bfs_pushes_each_vertex_at_most_once_witness :
    EdgesInRange 4 [(1, 2), (1, 3), (3, 4)] ∧ 1 ≤ (1 : Nat) ∧ (1 : Nat) ≤ 4 ∧
      ∃ (g' : Graph) (tr : List Nat),
        (buildGraph 4 [(1, 2), (1, 3), (3, 4)]).breadthFirstSearchTrace 1 = some (g', tr) ∧
        tr.Nodup ∧
        ∀ v, v ∈ tr ↔ (v < 4 + 1 ∧ g'.dist.getD v 0 ≠ -1) :=
  ⟨by unfold EdgesInRange; decide, by decide, by decide,
    bfs_pushes_each_vertex_at_most_once 4 [(1, 2), (1, 3), (3, 4)] 1 (by first | decide | unfold EdgesInRange; decide)
      (by first | decide | unfold EdgesInRange; decide) (by first | decide | unfold EdgesInRange; decide)⟩

theorem bfs_idempotent_witness :
    EdgesInRange 1 [(1, 1)] ∧ 1 ≤ (1 : Nat) ∧ (1 : Nat) ≤ 1 ∧
      (buildGraph 1 [(1, 1)]).breadthFirstSearch 1
        = some (Graph.mk [0, 1] [[], [1]] [-1, 0]) ∧
      (Graph.mk [0, 1] [[], [1]] [-1, 0]).breadthFirstSearch 1
        = some (Graph.mk [0, 1] [[], [1]] [-1, 0]) :=
  ⟨by unfold EdgesInRange; decide, by decide, by decide, by decide,
    bfs_idempotent 1 [(1, 1)] 1 (by first | decide | unfold EdgesInRange; decide) (by first | decide | unfold EdgesInRange; decide) (by first | decide | unfold EdgesInRange; decide) _ (by first | decide | unfold EdgesInRange; decide)⟩

theorem program_accesses_in_bounds_witness :
    (∀ e ∈ [((1 : Nat), (2 : Nat)), (2, 2)], e.1 ≤ 2 ∧ e.2 ≤ 2) ∧ (2 : Nat) ≤ 2 ∧
      (runProgramChecked 2 [(1, 2), (2, 2)] 2 = runProgram 2 [(1, 2), (2, 2)] 2 ∧
        (runProgramChecked 2 [(1, 2), (2, 2)] 2).isSome) :=
  ⟨by decide, by decide,
    program_accesses_in_bounds 2 [(1, 2), (2, 2)] 2 (by first | decide | unfold EdgesInRange; decide) (by first | decide | unfold EdgesInRange; decide)⟩

theorem bfs_frame_witness :
    (buildGraph 1 [(1, 1)]).breadthFirstSearch 1
        = some (Graph.mk [0, 1] [[], [1]] [-1, 0]) ∧
      ((Graph.mk [0, 1] [[], [1]] [-1, 0]).ids = (buildGraph 1 [(1, 1)]).ids ∧
        (Graph.mk [0, 1] [[], [1]] [-1, 0]).adj = (buildGraph 1 [(1, 1)]).adj ∧
        (Graph.mk [0, 1] [[], [1]] [-1, 0]).dist.length
          = (buildGraph 1 [(1, 1)]).dist.length ∧
        (Graph.mk [0, 1] [[], [1]] [-1, 0]).numberOfVertices
          = (buildGraph 1 [(1, 1)]).numberOfVertices) :=
  ⟨by decide, bfs_frame (buildGraph 1 [(1, 1)]) 1 _ (by first | decide | unfold EdgesInRange; decide)⟩

theorem program_deterministic_witness :
    (4 : Nat) = 4 ∧
      ([((1 : Nat), (2 : Nat)), (1, 3), (3, 4)] : List (Nat × Nat))
        = [(1, 2), (1, 3), (3, 4)] ∧
      (1 : Nat) = 1 ∧
      (buildGraph 4 [(1, 2), (1, 3), (3, 4)] = buildGraph 4 [(1, 2), (1, 3), (3, 4)] ∧
        (buildGraph 4 [(1, 2), (1, 3), (3, 4)]).breadthFirstSearch 1
          = (buildGraph 4 [(1, 2), (1, 3), (3, 4)]).breadthFirstSearch 1 ∧
        runProgram 4 [(1, 2), (1, 3), (3, 4)] 1 = runProgram 4 [(1, 2), (1, 3), (3, 4)] 1) :=
  ⟨rfl, rfl, rfl,
    program_deterministic 4 4 [(1, 2), (1, 3), (3, 4)] [(1, 2), (1, 3), (3, 4)] 1 1
      rfl rfl rfl⟩
